import Mathlib

/-!
Shallow embedding of the ai-job-match ranking engine.

Scores computed by the Python code in floating point are modelled over the
rationals (exact arithmetic); embedding vectors compared by cosine
similarity are modelled over the reals, because the source takes square
roots.  Calls to the external Hugging Face embedding service are modelled
as parameters: the query embedding is an `Option (List ℚ)` whose `none`
value stands for the call raising an exception, and the similarity
function used inside the ranking loop is passed in as `sim`, standing for
the floating-point cosine of externally produced vectors.

Sources embedded here:
  src/utils/text_utils.py   (clean_text, simple_match_score)
  src/utils/embeddings.py   (cosine_similarity, ensure_job_embeddings,
                             rank_jobs_by_embedding)
  src/app.py                (_sanitize_and_normalize_weights,
                             _sanitize_alpha, keyword_scores,
                             upload_resume branches, match_jobs)
-/

/-- The characters matched by the regex class backslash-s in Python
(re module, ASCII part): space, tab, newline, carriage return, vertical
tab, form feed. -/
def isSpaceChar (c : Char) : Bool :=
  c = ' ' ∨ c = '\t' ∨ c = '\n' ∨ c = '\r' ∨ c = '\x0b' ∨ c = '\x0c'

/-- Lower-case ASCII letter or digit: the character class [a-z0-9] of the
regex in clean_text. -/
def isAlnumLower (c : Char) : Bool :=
  ('a' ≤ c ∧ c ≤ 'z') ∨ ('0' ≤ c ∧ c ≤ '9')

/-- One character of clean_text: lower-case it, then replace everything
outside [a-z0-9 whitespace] by a space (the re.sub in clean_text). -/
def cleanChar (c : Char) : Char :=
  if isAlnumLower c.toLower ∨ isSpaceChar c.toLower then c.toLower else ' '

/-- The character stream of clean_text before whitespace collapsing:
s.lower() followed by re.sub of every non [a-z0-9 whitespace] character
with a space. -/
def clean_chars (l : List Char) : List Char := l.map cleanChar

/-- Split a character list at every whitespace character, keeping the
empty segments (auxiliary for pyWords). -/
def splitAtSpaces (l : List Char) : List (List Char) :=
  l.foldr (fun c acc =>
    if isSpaceChar c then [] :: acc
    else match acc with
      | [] => [[c]]
      | w :: ws => (c :: w) :: ws) []

/-- The maximal runs of non-whitespace characters, in order: the effect of
the Python str.split() with no argument. -/
def pyWords (l : List Char) : List (List Char) :=
  (splitAtSpaces l).filter (fun w => w ≠ [])

/-- clean_text from src/utils/text_utils.py: lower-case, replace every
character outside [a-z0-9 whitespace] with a space, collapse whitespace
runs to single spaces, and strip the ends; the result is the words of the
cleaned character stream joined by single spaces. -/
def clean_text (s : String) : String :=
  " ".intercalate ((pyWords (clean_chars s.data)).map String.mk)

/-- The token list of a text: clean_text(s).split() in the source. -/
def tokenList (s : String) : List String :=
  (pyWords (clean_chars s.data)).map String.mk

/-- The token set of a text: set(clean_text(s).split()) in the source. -/
def token_set (s : String) : Finset String := (tokenList s).toFinset

/-- simple_match_score from src/utils/text_utils.py: 0 when the query has
no tokens, otherwise the fraction of query tokens present in the text. -/
def simple_match_score (text query : String) : ℚ :=
  if token_set query = ∅ then 0
  else ((token_set text ∩ token_set query).card : ℚ) / (token_set query).card

/-- Python str.strip() on the query in match_jobs: remove whitespace from
both ends. -/
def pyStrip (s : String) : String :=
  String.mk (((s.data.dropWhile isSpaceChar).reverse.dropWhile isSpaceChar).reverse)

/-- _sanitize_and_normalize_weights from src/app.py.  A raw weight is an
Option: none models a value on which float() raises.  Both missing gives
the defaults, otherwise clamp each to [0,1]; a zero sum gives the
defaults, otherwise normalize to sum 1. -/
def sanitize_and_normalize_weights (title_w desc_w : Option ℚ) : ℚ × ℚ :=
  if title_w = none ∧ desc_w = none then (2/5, 3/5)
  else
    let t := max 0 (min 1 (title_w.getD 0))
    let d := max 0 (min 1 (desc_w.getD 0))
    if t + d = 0 then (2/5, 3/5)
    else (t / (t + d), d / (t + d))

/-- _sanitize_alpha from src/app.py: 0.5 when float() raises, otherwise
clamp to [0,1]. -/
def sanitize_alpha (alpha : Option ℚ) : ℚ :=
  match alpha with
  | none => 1/2
  | some a => max 0 (min 1 a)

/-- A row of the job catalog (sample_jobs.csv), with the four fields the
ranking code reads. -/
structure JobPosting where
  id : String
  title : String
  description : String
  location : String
deriving DecidableEq

/-- One entry of a ranked response: the dict with id, title, location and
score built by the scoring loops. -/
structure RankedResult where
  id : String
  title : String
  location : String
  score : ℚ
deriving DecidableEq

/-- Insert a result into a list already sorted by descending score,
before the first element of not larger score (auxiliary for the stable
descending sort). -/
def insertDesc (a : RankedResult) : List RankedResult → List RankedResult
  | [] => [a]
  | x :: xs => if a.score < x.score then x :: insertDesc a xs else a :: x :: xs

/-- Python sorted(results, key score, reverse=True): stable sort by
descending score; elements of equal score keep their original order. -/
def sortByScoreDesc : List RankedResult → List RankedResult
  | [] => []
  | a :: l => insertDesc a (sortByScoreDesc l)

/-- Python list slicing lst[:top] for an arbitrary integer top: a
nonnegative top keeps the first top elements; a negative top drops the
last |top| elements. -/
def pyTake {α : Type} (top : ℤ) (l : List α) : List α :=
  if 0 ≤ top then l.take top.toNat else l.take (l.length - (-top).toNat)

/-- Python round(x, 4): round to four decimal places, ties to even. -/
def pyRound4 (x : ℚ) : ℚ :=
  let y := x * 10000
  let fl := ⌊y⌋
  let r := y - fl
  let n : ℤ :=
    if r < 1/2 then fl
    else if 1/2 < r then fl + 1
    else if fl % 2 = 0 then fl else fl + 1
  (n : ℚ) / 10000

/-- Round every score of a ranked list (the for loops that round scores
at the response boundary in upload_resume). -/
def roundScores (l : List RankedResult) : List RankedResult :=
  l.map (fun r => { r with score := pyRound4 r.score })

/-- The dict comprehension mapping id to score over a ranked list,
looked up by id: a later entry with the same id overwrites an earlier
one, as in a Python dict build. -/
def dict_get : List RankedResult → String → Option ℚ
  | [], _ => none
  | r :: rest, j =>
    match dict_get rest j with
    | some s => some s
    | none => if r.id = j then some r.score else none

/-- One row of keyword scoring in src/app.py: blend the title and
description lexical scores with the sanitized weights. -/
def lexical_blend (tw dw : ℚ) (res_text : String) (row : JobPosting) : RankedResult :=
  ⟨row.id, row.title, row.location,
    tw * simple_match_score row.title res_text + dw * simple_match_score row.description res_text⟩

/-- keyword_scores from upload_resume in src/app.py: score every posting,
sort by descending score, slice to topn. -/
def keyword_scores (tw dw : ℚ) (jobs : List JobPosting) (res_text : String) (topn : ℤ) :
    List RankedResult :=
  pyTake topn (sortByScoreDesc (jobs.map (lexical_blend tw dw res_text)))

/-- The persisted embedding cache: a mapping from job id to vector
(a Python dict, modelled as an association list with unique keys). -/
abbrev EmbCache := List (String × List ℚ)

/-- Dict lookup job_emb_cache.get(jid) on the embedding cache. -/
def cache_get : EmbCache → String → Option (List ℚ)
  | [], _ => none
  | (k, v) :: c, j => if k = j then some v else cache_get c j

/-- One row of rank_jobs_by_embedding: skip the posting when its id has no
cached vector or the cached vector is empty (if not job_emb in the
source), otherwise score it by similarity against the query embedding. -/
def emb_score_row (sim : List ℚ → List ℚ → ℚ) (resume_emb : List ℚ) (cache : EmbCache)
    (row : JobPosting) : Option RankedResult :=
  match cache_get cache row.id with
  | none => none
  | some job_emb =>
      if job_emb = [] then none
      else some ⟨row.id, row.title, row.location, sim resume_emb job_emb⟩

/-- rank_jobs_by_embedding from src/utils/embeddings.py.  queryEmb models
the mandatory embed_text call on the resume text: none means the call
raised, which rank_jobs_by_embedding re-raises (the none result).  On
success, postings with cached vectors are scored by sim, sorted by
descending score and sliced to top. -/
def rank_jobs_by_embedding (sim : List ℚ → List ℚ → ℚ) (queryEmb : Option (List ℚ))
    (jobs : List JobPosting) (cache : EmbCache) (top : ℤ) : Option (List RankedResult) :=
  match queryEmb with
  | none => none
  | some resume_emb =>
      some (pyTake top (sortByScoreDesc (jobs.filterMap (emb_score_row sim resume_emb cache))))

/-- The keywords branch of upload_resume: keyword_scores followed by the
rounding loop. -/
def upload_keywords (tw dw : ℚ) (jobs : List JobPosting) (text : String) (top : ℤ) :
    List RankedResult :=
  roundScores (keyword_scores tw dw jobs text top)

/-- The embeddings branch of upload_resume: when the embeddings module is
available and the cache is nonempty, rank by embedding and round; an
exception (none) falls back to keyword_scores, as does an unavailable
module or empty cache. -/
def upload_embeddings (hf : Bool) (sim : List ℚ → List ℚ → ℚ) (queryEmb : Option (List ℚ))
    (jobs : List JobPosting) (cache : EmbCache) (tw dw : ℚ) (text : String) (top : ℤ) :
    List RankedResult :=
  if hf = true ∧ cache ≠ [] then
    match rank_jobs_by_embedding sim queryEmb jobs cache top with
    | some ms => roundScores ms
    | none => keyword_scores tw dw jobs text top
  else keyword_scores tw dw jobs text top

/-- The emb list of the hybrid branch of upload_resume: the embedding
ranking over the whole catalog, or the empty list when the embeddings
module is unavailable, the cache is empty, or the ranking raised. -/
def hybrid_emb_list (hf : Bool) (sim : List ℚ → List ℚ → ℚ) (queryEmb : Option (List ℚ))
    (jobs : List JobPosting) (cache : EmbCache) : List RankedResult :=
  if hf = true ∧ cache ≠ [] then
    (rank_jobs_by_embedding sim queryEmb jobs cache (jobs.length : ℤ)).getD []
  else []

/-- The combined per-posting list of the hybrid branch of upload_resume,
before sorting: keyword scores over all postings and embedding scores
over all postings (empty on failure or unavailability), blended with the
mixing coefficient alpha through the two id-to-score dicts. -/
def hybrid_combined (hf : Bool) (sim : List ℚ → List ℚ → ℚ) (queryEmb : Option (List ℚ))
    (jobs : List JobPosting) (cache : EmbCache) (tw dw alpha : ℚ) (text : String) :
    List RankedResult :=
  jobs.map (fun row =>
    ⟨row.id, row.title, row.location,
      (1 - alpha) * ((dict_get (keyword_scores tw dw jobs text (jobs.length : ℤ)) row.id).getD 0)
      + alpha * ((dict_get (hybrid_emb_list hf sim queryEmb jobs cache) row.id).getD 0)⟩)

/-- The hybrid branch of upload_resume: blend, sort, slice to top, round. -/
def upload_hybrid (hf : Bool) (sim : List ℚ → List ℚ → ℚ) (queryEmb : Option (List ℚ))
    (jobs : List JobPosting) (cache : EmbCache) (tw dw alpha : ℚ) (text : String) (top : ℤ) :
    List RankedResult :=
  roundScores (pyTake top (sortByScoreDesc (hybrid_combined hf sim queryEmb jobs cache tw dw alpha text)))

/-- The method values accepted by upload_resume. -/
def allowed_methods : List String := ["auto", "keywords", "embeddings", "hybrid"]

/-- Method sanitization in upload_resume: an unknown method value falls
back to auto. -/
def resolve_method (method : String) : String :=
  if method ∈ allowed_methods then method else "auto"

/-- Mode resolution in upload_resume: auto prefers embeddings when the
module is available and the cache is nonempty, else keywords. -/
def resolve_actual (hf : Bool) (cache : EmbCache) (method : String) : String :=
  if resolve_method method = "auto" then
    (if hf = true ∧ cache ≠ [] then "embeddings" else "keywords")
  else resolve_method method

/-- The ranking part of upload_resume in src/app.py: sanitize weights,
alpha and method, resolve auto to embeddings when available, and run the
selected branch. -/
def upload_resume_matches (hf : Bool) (sim : List ℚ → List ℚ → ℚ) (queryEmb : Option (List ℚ))
    (jobs : List JobPosting) (cache : EmbCache) (method : String)
    (title_w_raw desc_w_raw alpha_raw : Option ℚ) (text : String) (top : ℤ) :
    List RankedResult :=
  if resolve_actual hf cache method = "embeddings" then
    upload_embeddings hf sim queryEmb jobs cache
      (sanitize_and_normalize_weights title_w_raw desc_w_raw).1
      (sanitize_and_normalize_weights title_w_raw desc_w_raw).2 text top
  else if resolve_actual hf cache method = "hybrid" then
    upload_hybrid hf sim queryEmb jobs cache
      (sanitize_and_normalize_weights title_w_raw desc_w_raw).1
      (sanitize_and_normalize_weights title_w_raw desc_w_raw).2
      (sanitize_alpha alpha_raw) text top
  else
    upload_keywords (sanitize_and_normalize_weights title_w_raw desc_w_raw).1
      (sanitize_and_normalize_weights title_w_raw desc_w_raw).2 jobs text top

/-- The match_jobs route of src/app.py: reject a query that strips to the
empty string with a request error, otherwise score every posting against
the stripped query, round each score, then sort and slice. -/
def match_jobs (jobs : List JobPosting) (q : String) (top : ℤ)
    (title_w_raw desc_w_raw : Option ℚ) : Except String (List RankedResult) :=
  let qs := pyStrip q
  if qs = "" then Except.error "missing query parameter q"
  else
    let w := sanitize_and_normalize_weights title_w_raw desc_w_raw
    Except.ok (pyTake top (sortByScoreDesc (jobs.map (fun row =>
      ⟨row.id, row.title, row.location,
        pyRound4 (w.1 * simple_match_score row.title qs +
          w.2 * simple_match_score row.description qs)⟩))))

/-- The text embedded for a posting by ensure_job_embeddings: the title,
a period and space, and the description. -/
def emb_text (row : JobPosting) : String := row.title ++ ". " ++ row.description

/-- ensure_job_embeddings from src/utils/embeddings.py.  embed models the
per-document Hugging Face call: none means the call raised, and the row
is skipped with the pass continuing.  Rows with an empty id or an id
already cached are skipped; a successful embedding is appended to the
cache. -/
def ensure_job_embeddings (embed : String → Option (List ℚ)) :
    List JobPosting → EmbCache → EmbCache
  | [], cache => cache
  | row :: rest, cache =>
    if row.id = "" then ensure_job_embeddings embed rest cache
    else if (cache_get cache row.id).isSome then ensure_job_embeddings embed rest cache
    else
      match embed (emb_text row) with
      | some e => ensure_job_embeddings embed rest (cache ++ [(row.id, e)])
      | none => ensure_job_embeddings embed rest cache

/-- The comparison object of claim C2 at alpha = 1, written from the spec
wording: pure vector ranking restricted to postings with cached vectors,
a posting without a (nonempty) cached vector contributing score 0, then
sorted, sliced and rounded like the hybrid response. -/
def vector_rank_zero_fill (sim : List ℚ → List ℚ → ℚ) (e : List ℚ) (jobs : List JobPosting)
    (cache : EmbCache) (top : ℤ) : List RankedResult :=
  roundScores (pyTake top (sortByScoreDesc (jobs.map (fun row =>
    ⟨row.id, row.title, row.location,
      match cache_get cache row.id with
      | some v => if v = [] then 0 else sim e v
      | none => 0⟩))))

/-- The comparison object of claim C5, written from the spec wording: the
full-precision ranked list (score every posting, stable sort by
descending score, truncate) with each score then rounded to 4 decimal
places at the output boundary. -/
def boundary_rounded_keyword_ranking (tw dw : ℚ) (jobs : List JobPosting) (text : String)
    (top : ℤ) : List RankedResult :=
  (pyTake top (sortByScoreDesc (jobs.map (lexical_blend tw dw text)))).map
    (fun r => ⟨r.id, r.title, r.location, pyRound4 r.score⟩)

/-- Two sample postings (from the sample catalog) used as the concrete
catalog of counterexamples and witnesses. -/
def jobsEx : List JobPosting :=
  [⟨"1", "Data Engineer", "Build pipelines with Python and SQL", "Remote"⟩,
   ⟨"2", "Web Developer", "Build web apps with JavaScript", "NY"⟩]

/-- A concrete per-document embedding function for witnesses: it can
embed exactly the first sample posting. -/
def embedEx : String → Option (List ℚ) :=
  fun s => if s = "Data Engineer. Build pipelines with Python and SQL" then some [1] else none

/-- A concrete loaded cache for witnesses, holding an id absent from the
sample catalog. -/
def cacheEx : EmbCache := [("0", [2])]

/-- The two-posting catalog of the C5 counterexample: the first posting
scores slightly below the second under the counterexample weights, and
both rounded scores coincide. -/
def jobsRound : List JobPosting :=
  [⟨"1", "x", "python", "L1"⟩, ⟨"2", "python", "python", "L2"⟩]

/-- The dot product sum(x * y for x, y in zip(a, b)) of cosine_similarity. -/
def dotList (a b : List ℝ) : ℝ := ((a.zip b).map (fun p => p.1 * p.2)).sum

/-- The sum of squares under the square root in the norms of
cosine_similarity. -/
def sumSq (a : List ℝ) : ℝ := (a.map (fun x => x * x)).sum

open Classical in
/-- cosine_similarity from src/utils/embeddings.py, over the reals: 0 for
an empty vector, mismatched lengths, or a zero norm; otherwise the dot
product divided by the product of the Euclidean norms. -/
noncomputable def cosine_similarity (a b : List ℝ) : ℝ :=
  if a = [] ∨ b = [] then 0
  else if a.length ≠ b.length then 0
  else if Real.sqrt (sumSq a) = 0 ∨ Real.sqrt (sumSq b) = 0 then 0
  else dotList a b / (Real.sqrt (sumSq a) * Real.sqrt (sumSq b))

theorem insertDesc_perm (a : RankedResult) (l : List RankedResult) :
    (insertDesc a l).Perm (a :: l) := by
  induction l with
  | nil => simp [insertDesc]
  | cons x xs ih =>
    rw [insertDesc]
    split
    · exact (ih.cons x).trans (List.Perm.swap a x xs)
    · exact List.Perm.refl _

theorem sortByScoreDesc_perm (l : List RankedResult) : (sortByScoreDesc l).Perm l := by
  induction l with
  | nil => exact List.Perm.refl _
  | cons a l ih => exact (insertDesc_perm a (sortByScoreDesc l)).trans (ih.cons a)

theorem length_sortByScoreDesc (l : List RankedResult) :
    (sortByScoreDesc l).length = l.length :=
  (sortByScoreDesc_perm l).length_eq

theorem pyTake_length {α : Type} (top : ℤ) (l : List α) (h : 0 ≤ top) :
    (pyTake top l).length = min top.toNat l.length := by
  rw [pyTake, if_pos h, List.length_take]

theorem pyTake_zero {α : Type} (l : List α) : pyTake 0 l = [] := by
  simp [pyTake]

theorem pyTake_neg_length {α : Type} (top : ℤ) (l : List α) (h : top < 0) :
    (pyTake top l).length = l.length - (-top).toNat := by
  rw [pyTake, if_neg (by omega), List.length_take]
  omega

theorem pyTake_of_length_le {α : Type} (top : ℤ) (l : List α) (h : (l.length : ℤ) ≤ top) :
    pyTake top l = l := by
  rw [pyTake, if_pos (by omega)]
  exact List.take_of_length_le (by omega)

theorem pyTake_subset {α : Type} (top : ℤ) (l : List α) : pyTake top l ⊆ l := by
  rw [pyTake]
  split <;> exact List.take_subset _ _

theorem dict_get_eq_none (l : List RankedResult) (j : String) (h : ∀ r ∈ l, r.id ≠ j) :
    dict_get l j = none := by
  induction l with
  | nil => rfl
  | cons r rest ih =>
    rw [dict_get, ih (fun x hx => h x (List.mem_cons_of_mem _ hx))]
    simp [h r (List.mem_cons_self ..)]

theorem dict_get_of_mem (l : List RankedResult) (r : RankedResult)
    (hnd : (l.map RankedResult.id).Nodup) (hr : r ∈ l) :
    dict_get l r.id = some r.score := by
  induction l with
  | nil => cases hr
  | cons x rest ih =>
    rw [List.map_cons, List.nodup_cons] at hnd
    rcases List.mem_cons.mp hr with h | h
    · subst h
      rw [dict_get, dict_get_eq_none rest r.id ?_]
      · simp
      · intro s hs hss
        exact hnd.1 (hss ▸ List.mem_map_of_mem RankedResult.id hs)
    · rw [dict_get, ih hnd.2 h]

theorem pyWords_cons_space (c : Char) (t : List Char) (h : isSpaceChar c = true) :
    pyWords (c :: t) = pyWords t := by
  simp [pyWords, splitAtSpaces, h]

theorem pyWords_cons_nonspace_ne_nil (c : Char) (t : List Char) (h : isSpaceChar c = false) :
    pyWords (c :: t) ≠ [] := by
  have hsplit : splitAtSpaces (c :: t) = (match splitAtSpaces t with
      | [] => [[c]]
      | w :: ws => (c :: w) :: ws) := by
    simp [splitAtSpaces, h]
  rw [pyWords, hsplit]
  cases splitAtSpaces t <;> simp

theorem pyWords_eq_nil_iff (l : List Char) :
    pyWords l = [] ↔ ∀ c ∈ l, isSpaceChar c = true := by
  induction l with
  | nil => simp [pyWords, splitAtSpaces]
  | cons c t ih =>
    by_cases h : isSpaceChar c = true
    · rw [pyWords_cons_space c t h]
      simp [h, ih]
    · simp only [Bool.not_eq_true] at h
      constructor
      · intro hw
        exact absurd hw (pyWords_cons_nonspace_ne_nil c t h)
      · intro hall
        exact absurd (hall c (List.mem_cons_self ..)) (by simp [h])

theorem token_set_eq_empty_iff (s : String) :
    token_set s = ∅ ↔ ∀ c ∈ s.data, isSpaceChar (cleanChar c) = true := by
  rw [token_set, List.toFinset_eq_empty_iff, tokenList, List.map_eq_nil_iff,
    pyWords_eq_nil_iff, clean_chars]
  constructor
  · intro h c hc
    exact h (cleanChar c) (List.mem_map_of_mem cleanChar hc)
  · intro h x hx
    rcases List.mem_map.mp hx with ⟨c, hc, rfl⟩
    exact h c hc

theorem token_set_pyStrip_empty (q : String) (h : token_set q = ∅) :
    token_set (pyStrip q) = ∅ := by
  rw [token_set_eq_empty_iff] at h ⊢
  intro c hc
  apply h
  have h1 : c ∈ (q.data.dropWhile isSpaceChar).reverse.dropWhile isSpaceChar := by
    exact List.mem_reverse.mp hc
  have h2 : c ∈ (q.data.dropWhile isSpaceChar).reverse :=
    (List.dropWhile_sublist _).subset h1
  exact (List.dropWhile_sublist _).subset (List.mem_reverse.mp h2)

theorem simple_match_score_nonneg (t q : String) : 0 ≤ simple_match_score t q := by
  rw [simple_match_score]
  split
  · exact le_refl 0
  · positivity

theorem token_card_pos (q : String) (hq : token_set q ≠ ∅) :
    (0 : ℚ) < (token_set q).card := by
  have := Finset.card_pos.mpr (Finset.nonempty_iff_ne_empty.mpr hq)
  exact_mod_cast this

theorem simple_match_score_le_one (t q : String) : simple_match_score t q ≤ 1 := by
  rw [simple_match_score]
  split
  · norm_num
  · rename_i hq
    have h1 : (token_set t ∩ token_set q).card ≤ (token_set q).card :=
      Finset.card_le_card Finset.inter_subset_right
    rw [div_le_one (token_card_pos q hq)]
    exact_mod_cast h1

theorem simple_match_score_eq_one_iff (t q : String) (hq : token_set q ≠ ∅) :
    simple_match_score t q = 1 ↔ token_set q ⊆ token_set t := by
  rw [simple_match_score, if_neg hq,
    div_eq_one_iff_eq (ne_of_gt (token_card_pos q hq))]
  constructor
  · intro h
    have hcard : (token_set q).card ≤ (token_set t ∩ token_set q).card := by
      exact_mod_cast le_of_eq h.symm
    exact Finset.inter_eq_right.mp
      (Finset.eq_of_subset_of_card_le Finset.inter_subset_right hcard)
  · intro h
    rw [Finset.inter_eq_right.mpr h]

theorem sanitize_weights_props (t0 d0 : Option ℚ) :
    0 ≤ (sanitize_and_normalize_weights t0 d0).1 ∧
    0 ≤ (sanitize_and_normalize_weights t0 d0).2 ∧
    (sanitize_and_normalize_weights t0 d0).1 + (sanitize_and_normalize_weights t0 d0).2 = 1 := by
  rw [sanitize_and_normalize_weights]
  split
  · norm_num
  · have ht : (0:ℚ) ≤ max 0 (min 1 (t0.getD 0)) := le_max_left 0 _
    have hd : (0:ℚ) ≤ max 0 (min 1 (d0.getD 0)) := le_max_left 0 _
    dsimp only
    split
    · norm_num
    · rename_i hs
      have hpos : 0 < max 0 (min 1 (t0.getD 0)) + max 0 (min 1 (d0.getD 0)) :=
        lt_of_le_of_ne (by linarith) (Ne.symm hs)
      refine ⟨div_nonneg ht (le_of_lt hpos), div_nonneg hd (le_of_lt hpos), ?_⟩
      field_simp

/-- C1 (amended): the lexical score is 0 for a tokenless query, otherwise
the fraction of query tokens present in the document token set; it lies
in [0,1]; and for a query with at least one token it equals 1 exactly
when every query token appears in the document token set. -/
theorem simple_match_score_spec (text query : String) :
    (token_set query = ∅ → simple_match_score text query = 0)
    ∧ (token_set query ≠ ∅ → simple_match_score text query =
        ((token_set text ∩ token_set query).card : ℚ) / (token_set query).card)
    ∧ 0 ≤ simple_match_score text query
    ∧ simple_match_score text query ≤ 1
    ∧ (token_set query ≠ ∅ →
        (simple_match_score text query = 1 ↔ token_set query ⊆ token_set text)) :=
  ⟨fun h => by rw [simple_match_score, if_pos h],
   fun h => by rw [simple_match_score, if_neg h],
   simple_match_score_nonneg text query,
   simple_match_score_le_one text query,
   simple_match_score_eq_one_iff text query⟩

/-- C1 counterexample: for the empty query, every query token (vacuously)
appears in the document token set, yet simple_match_score returns 0, not
1 — so the biconditional of the claim fails at the empty query. -/
theorem simple_match_score_subset_counterexample :
    token_set "" ⊆ token_set "hello" ∧ simple_match_score "hello" "" ≠ 1 := by
  constructor
  · decide
  · rw [simple_match_score, if_pos (by decide)]
    norm_num

/-- Witness for C1: the spec example text scores 1.0 against the query
with both tokens present. -/
theorem simple_match_score_spec_witness :
    simple_match_score "We build data pipelines using Python and SQL" "python sql" = 1 :=
  ((simple_match_score_spec "We build data pipelines using Python and SQL"
    "python sql").2.2.2.2 (by decide)).mpr (by decide)

/-- C7: weight and alpha sanitization never raises (all the functions
below are total): weights (0,0) and two unparsable weights give the
defaults (0.4, 0.6); weights (2,-1) clamp and normalize to (1,0); an
unparsable alpha gives 0.5 and a parsed alpha is clamped into [0,1]. -/
theorem sanitization_spec :
    sanitize_and_normalize_weights (some 0) (some 0) = (0.4, 0.6)
    ∧ sanitize_and_normalize_weights none none = (0.4, 0.6)
    ∧ sanitize_and_normalize_weights (some 2) (some (-1)) = (1, 0)
    ∧ sanitize_alpha none = 0.5
    ∧ (∀ x : ℚ, sanitize_alpha (some x) = max 0 (min 1 x))
    ∧ (∀ a : Option ℚ, 0 ≤ sanitize_alpha a ∧ sanitize_alpha a ≤ 1) := by
  refine ⟨?_, ?_, ?_, ?_, fun x => rfl, ?_⟩
  · rw [sanitize_and_normalize_weights, if_neg (by simp)]
    norm_num [min_def, max_def, Prod.ext_iff]
  · norm_num [sanitize_and_normalize_weights, Prod.ext_iff]
  · rw [sanitize_and_normalize_weights, if_neg (by simp)]
    norm_num [min_def, max_def, Prod.ext_iff]
  · norm_num [sanitize_alpha]
  · rintro (_ | a)
    · constructor <;> norm_num [sanitize_alpha]
    · exact ⟨le_max_left 0 _, max_le (by norm_num) (min_le_left 1 a)⟩

/-- C10: with sanitized weights, the blended keyword score of any posting
against any query lies in [0,1]: the weights are nonnegative and sum to
1, and each per-field lexical score lies in [0,1]. -/
theorem blended_keyword_score_unit_interval (t0 d0 : Option ℚ) (q : String) (row : JobPosting) :
    0 ≤ (lexical_blend (sanitize_and_normalize_weights t0 d0).1
          (sanitize_and_normalize_weights t0 d0).2 q row).score
    ∧ (lexical_blend (sanitize_and_normalize_weights t0 d0).1
          (sanitize_and_normalize_weights t0 d0).2 q row).score ≤ 1 := by
  obtain ⟨ht, hd, hsum⟩ := sanitize_weights_props t0 d0
  have s1n := simple_match_score_nonneg row.title q
  have s2n := simple_match_score_nonneg row.description q
  have s1l := simple_match_score_le_one row.title q
  have s2l := simple_match_score_le_one row.description q
  simp only [lexical_blend]
  constructor
  · exact add_nonneg (mul_nonneg ht s1n) (mul_nonneg hd s2n)
  · have h1 := mul_le_of_le_one_right ht s1l
    have h2 := mul_le_of_le_one_right hd s2l
    linarith

theorem keyword_scores_length (tw dw : ℚ) (jobs : List JobPosting) (text : String)
    (top : ℤ) (h : 0 ≤ top) :
    (keyword_scores tw dw jobs text top).length = min top.toNat jobs.length := by
  rw [keyword_scores, pyTake_length _ _ h, length_sortByScoreDesc, List.length_map]

theorem upload_embeddings_length_le (hf : Bool) (sim : List ℚ → List ℚ → ℚ)
    (queryEmb : Option (List ℚ)) (jobs : List JobPosting) (cache : EmbCache)
    (tw dw : ℚ) (text : String) (top : ℤ) (h : 0 ≤ top) :
    (upload_embeddings hf sim queryEmb jobs cache tw dw text top).length
      ≤ min top.toNat jobs.length := by
  have hkw : (keyword_scores tw dw jobs text top).length ≤ min top.toNat jobs.length :=
    le_of_eq (keyword_scores_length tw dw jobs text top h)
  rw [upload_embeddings]
  split
  · cases queryEmb with
    | none => simpa only [rank_jobs_by_embedding] using hkw
    | some e =>
      simp only [rank_jobs_by_embedding, roundScores, List.length_map,
        pyTake_length _ _ h, length_sortByScoreDesc]
      exact min_le_min (le_refl _) (List.length_filterMap_le _ _)
  · exact hkw

theorem upload_hybrid_length (hf : Bool) (sim : List ℚ → List ℚ → ℚ)
    (queryEmb : Option (List ℚ)) (jobs : List JobPosting) (cache : EmbCache)
    (tw dw alpha : ℚ) (text : String) (top : ℤ) (h : 0 ≤ top) :
    (upload_hybrid hf sim queryEmb jobs cache tw dw alpha text top).length
      = min top.toNat jobs.length := by
  rw [upload_hybrid, roundScores, List.length_map, pyTake_length _ _ h,
    length_sortByScoreDesc, hybrid_combined, List.length_map]

theorem upload_matches_length_le (hf : Bool) (sim : List ℚ → List ℚ → ℚ)
    (queryEmb : Option (List ℚ)) (jobs : List JobPosting) (cache : EmbCache)
    (method : String) (t0 d0 a0 : Option ℚ) (text : String) (top : ℤ) (h : 0 ≤ top) :
    (upload_resume_matches hf sim queryEmb jobs cache method t0 d0 a0 text top).length
      ≤ min top.toNat jobs.length := by
  rw [upload_resume_matches]
  split
  · exact upload_embeddings_length_le hf sim queryEmb jobs cache _ _ text top h
  · split
    · exact le_of_eq (upload_hybrid_length hf sim queryEmb jobs cache _ _ _ text top h)
    · rw [upload_keywords, roundScores, List.length_map]
      exact le_of_eq (keyword_scores_length _ _ jobs text top h)

/-- C3 counterexample: with top_n = -1 on a two-posting catalog the
ranked list is NOT empty — Python slicing lst[:-1] keeps the first
element — contradicting the claim that every top_n ≤ 0 yields []. -/
theorem negative_top_counterexample :
    keyword_scores (2/5) (3/5) jobsEx "python" (-1) ≠ [] := by
  intro h
  have hl : (keyword_scores (2/5) (3/5) jobsEx "python" (-1)).length = 1 := by
    rw [keyword_scores, pyTake_neg_length _ _ (by norm_num), length_sortByScoreDesc,
      List.length_map]
    rfl
  rw [h] at hl
  exact absurd hl (by norm_num)

/-- C3 (amended): for every nonnegative top_n the ranked result of
keyword scoring, embedding ranking, and the whole upload dispatcher has
length at most min(top_n, number of postings), and top_n = 0 yields the
empty list; a negative top_n instead drops the last |top_n| postings
(Python slicing), so the keyword result then has length
|postings| - |top_n| truncated at 0, not 0.  No input raises: every
function involved is total. -/
theorem ranking_length_spec (tw dw : ℚ) (sim : List ℚ → List ℚ → ℚ) (e : List ℚ)
    (hf : Bool) (queryEmb : Option (List ℚ)) (jobs : List JobPosting) (cache : EmbCache)
    (method : String) (t0 d0 a0 : Option ℚ) (text : String) (top : ℤ) :
    (0 ≤ top →
      (keyword_scores tw dw jobs text top).length ≤ min top.toNat jobs.length
      ∧ (∀ l, rank_jobs_by_embedding sim (some e) jobs cache top = some l →
          l.length ≤ min top.toNat jobs.length)
      ∧ (upload_resume_matches hf sim queryEmb jobs cache method t0 d0 a0 text top).length
          ≤ min top.toNat jobs.length)
    ∧ (top = 0 → keyword_scores tw dw jobs text top = []
        ∧ upload_resume_matches hf sim queryEmb jobs cache method t0 d0 a0 text top = [])
    ∧ (top < 0 →
        (keyword_scores tw dw jobs text top).length = jobs.length - (-top).toNat) := by
  refine ⟨fun h => ⟨le_of_eq (keyword_scores_length tw dw jobs text top h), ?_, ?_⟩,
    fun h => ?_, fun h => ?_⟩
  · intro l hl
    rw [rank_jobs_by_embedding] at hl
    injection hl with hl
    rw [← hl, pyTake_length _ _ h, length_sortByScoreDesc]
    exact min_le_min (le_refl _) (List.length_filterMap_le _ _)
  · exact upload_matches_length_le hf sim queryEmb jobs cache method t0 d0 a0 text top h
  · subst h
    constructor
    · exact List.length_eq_zero.mp (by
        rw [keyword_scores_length tw dw jobs text 0 (le_refl 0)]
        simp)
    · refine List.length_eq_zero.mp (Nat.le_zero.mp ?_)
      have := upload_matches_length_le hf sim queryEmb jobs cache method t0 d0 a0 text 0 (le_refl 0)
      simpa using this
  · rw [keyword_scores, pyTake_neg_length _ _ h, length_sortByScoreDesc, List.length_map]

/-- Witness for C3 at a concrete request: top_n = 3 on the two-posting
catalog, all three bounds delivered by the amended theorem. -/
theorem ranking_length_spec_witness :
    (keyword_scores (2/5) (3/5) jobsEx "python" 3).length ≤ min (Int.toNat 3) jobsEx.length
    ∧ (upload_resume_matches false (fun _ _ => 0) none jobsEx [] "auto" none none none
        "python" 3).length ≤ min (Int.toNat 3) jobsEx.length := by
  have h := (ranking_length_spec (2/5) (3/5) (fun _ _ => 0) [] false none jobsEx [] "auto"
    none none none "python" 3).1 (by norm_num)
  exact ⟨h.1, h.2.2⟩

theorem pyRound4_zero : pyRound4 0 = 0 := by
  rw [pyRound4]
  norm_num

/-- C4 counterexample: the query of only punctuation strips to a nonempty
string, so match_jobs does NOT report a request error: it returns the
whole catalog with every score 0, contradicting the claim that a query
normalizing to zero tokens is rejected. -/
theorem punctuation_query_counterexample :
    match_jobs jobsEx "!!!" 5 none none =
      Except.ok [⟨"1", "Data Engineer", "Remote", 0⟩, ⟨"2", "Web Developer", "NY", 0⟩] := by
  have hstrip : pyStrip "!!!" = "!!!" := by decide
  have hts : token_set "!!!" = ∅ := by decide
  have hw : sanitize_and_normalize_weights (none : Option ℚ) none = (2/5, 3/5) := by
    norm_num [sanitize_and_normalize_weights]
  have hsms : ∀ t : String, simple_match_score t "!!!" = 0 := fun t => by
    rw [simple_match_score, if_pos hts]
  simp only [match_jobs, hstrip, hw]
  rw [if_neg (by decide : ¬("!!!" = ""))]
  simp only [jobsEx, List.map_cons, List.map_nil, hsms]
  norm_num [pyRound4_zero, sortByScoreDesc, insertDesc, pyTake]

/-- C4 (amended): match_jobs reports the request error exactly when the
query strips to the empty string; a query that strips to something
nonempty but normalizes to zero tokens (e.g. only punctuation) is NOT
rejected — it returns a ranked list in which every score is 0. -/
theorem match_query_validation_spec (jobs : List JobPosting) (q : String) (top : ℤ)
    (t0 d0 : Option ℚ) :
    (pyStrip q = "" → match_jobs jobs q top t0 d0 = Except.error "missing query parameter q")
    ∧ (pyStrip q ≠ "" → token_set q = ∅ →
        ∃ l, match_jobs jobs q top t0 d0 = Except.ok l ∧ ∀ r ∈ l, r.score = 0) := by
  constructor
  · intro h
    rw [match_jobs]
    simp [h]
  · intro h hq
    rw [match_jobs]
    simp only [if_neg h]
    refine ⟨_, rfl, ?_⟩
    intro r hr
    have hr2 := pyTake_subset _ _ hr
    have hr3 := (sortByScoreDesc_perm _).subset hr2
    rcases List.mem_map.mp hr3 with ⟨row, hrow, rfl⟩
    have h0 : token_set (pyStrip q) = ∅ := token_set_pyStrip_empty q hq
    simp only [simple_match_score, if_pos h0]
    norm_num [pyRound4_zero]

/-- Witness for C4: a whitespace-only query is rejected with the request
error, and the punctuation-only query yields an all-zero-score list. -/
theorem match_query_validation_spec_witness :
    match_jobs jobsEx " " 5 none none = Except.error "missing query parameter q"
    ∧ ∃ l, match_jobs jobsEx "!!!" 5 none none = Except.ok l ∧ ∀ r ∈ l, r.score = 0 :=
  ⟨(match_query_validation_spec jobsEx " " 5 none none).1 (by decide),
   (match_query_validation_spec jobsEx "!!!" 5 none none).2 (by decide) (by decide)⟩

/-- C6: in vector mode (method embeddings, module available, nonempty
cache), a failing mandatory query embedding (queryEmb = none, any
exception) makes the orchestrator return the lexical keyword ranking for
the request instead of propagating the error, and the response length is
still at most top_n. -/
theorem embedding_failure_fallback (hf : Bool) (sim : List ℚ → List ℚ → ℚ)
    (jobs : List JobPosting) (cache : EmbCache) (t0 d0 a0 : Option ℚ)
    (text : String) (top : ℤ)
    (hhf : hf = true) (hc : cache ≠ []) (htop : 0 ≤ top) :
    upload_resume_matches hf sim none jobs cache "embeddings" t0 d0 a0 text top
      = keyword_scores (sanitize_and_normalize_weights t0 d0).1
          (sanitize_and_normalize_weights t0 d0).2 jobs text top
    ∧ (upload_resume_matches hf sim none jobs cache "embeddings" t0 d0 a0 text top).length
        ≤ min top.toNat jobs.length := by
  have hm : resolve_method "embeddings" = "embeddings" := by
    rw [resolve_method, if_pos (by decide)]
  have hact : resolve_actual hf cache "embeddings" = "embeddings" := by
    rw [resolve_actual, hm, if_neg (by decide)]
  have hmain : upload_resume_matches hf sim none jobs cache "embeddings" t0 d0 a0 text top
      = keyword_scores (sanitize_and_normalize_weights t0 d0).1
          (sanitize_and_normalize_weights t0 d0).2 jobs text top := by
    rw [upload_resume_matches, hact, if_pos rfl, upload_embeddings, if_pos ⟨hhf, hc⟩]
    rfl
  refine ⟨hmain, ?_⟩
  rw [hmain]
  exact le_of_eq (keyword_scores_length _ _ jobs text top htop)

/-- Witness for C6 at a concrete request with a failing query embedding. -/
theorem embedding_failure_fallback_witness :
    upload_resume_matches true (fun _ _ => 0) none jobsEx [("1", [1])] "embeddings"
        none none none "python" 5
      = keyword_scores (sanitize_and_normalize_weights none none).1
          (sanitize_and_normalize_weights none none).2 jobsEx "python" 5 :=
  (embedding_failure_fallback true (fun _ _ => 0) jobsEx [("1", [1])] none none none
    "python" 5 rfl (by simp) (by norm_num)).1

theorem cache_get_append_single (c : EmbCache) (k : String) (v : List ℚ) (j : String) :
    cache_get (c ++ [(k, v)]) j =
      match cache_get c j with
      | some w => some w
      | none => if k = j then some v else none := by
  induction c with
  | nil => rfl
  | cons p c ih =>
    obtain ⟨k0, v0⟩ := p
    by_cases h : k0 = j
    · simp [cache_get, h]
    · simp [cache_get, h, ih]

theorem ensure_preserves (embed : String → Option (List ℚ)) (jobs : List JobPosting) :
    ∀ (c : EmbCache) (j : String) (v : List ℚ), cache_get c j = some v →
      cache_get (ensure_job_embeddings embed jobs c) j = some v := by
  induction jobs with
  | nil => intro c j v h; exact h
  | cons row rest ih =>
    intro c j v h
    rw [ensure_job_embeddings]
    split
    · exact ih c j v h
    · split
      · exact ih c j v h
      · cases he : embed (emb_text row) with
        | some e =>
          apply ih
          rw [cache_get_append_single, h]
        | none => exact ih c j v h

theorem ensure_new_iff (embed : String → Option (List ℚ)) (jobs : List JobPosting) :
    ∀ (c : EmbCache) (j : String), cache_get c j = none →
      ((cache_get (ensure_job_embeddings embed jobs c) j).isSome = true
        ↔ ∃ row ∈ jobs, row.id = j ∧ j ≠ "" ∧ (embed (emb_text row)).isSome = true) := by
  induction jobs with
  | nil =>
    intro c j h
    rw [ensure_job_embeddings]
    simp [h]
  | cons row rest ih =>
    intro c j h
    rw [ensure_job_embeddings]
    by_cases hid : row.id = ""
    · rw [if_pos hid, ih c j h]
      constructor
      · rintro ⟨r, hr, h1, h2, h3⟩
        exact ⟨r, List.mem_cons_of_mem _ hr, h1, h2, h3⟩
      · rintro ⟨r, hr, h1, h2, h3⟩
        rcases List.mem_cons.mp hr with rfl | hr2
        · exact absurd (h1.symm.trans hid) h2
        · exact ⟨r, hr2, h1, h2, h3⟩
    · rw [if_neg hid]
      by_cases hcached : (cache_get c row.id).isSome
      · rw [if_pos hcached, ih c j h]
        have hne : row.id ≠ j := by
          intro he
          rw [he, h] at hcached
          simp at hcached
        constructor
        · rintro ⟨r, hr, h1, h2, h3⟩
          exact ⟨r, List.mem_cons_of_mem _ hr, h1, h2, h3⟩
        · rintro ⟨r, hr, h1, h2, h3⟩
          rcases List.mem_cons.mp hr with rfl | hr2
          · exact absurd h1 hne
          · exact ⟨r, hr2, h1, h2, h3⟩
      · rw [if_neg hcached]
        cases he : embed (emb_text row) with
        | none =>
          rw [ih c j h]
          constructor
          · rintro ⟨r, hr, h1, h2, h3⟩
            exact ⟨r, List.mem_cons_of_mem _ hr, h1, h2, h3⟩
          · rintro ⟨r, hr, h1, h2, h3⟩
            rcases List.mem_cons.mp hr with rfl | hr2
            · rw [he] at h3
              simp at h3
            · exact ⟨r, hr2, h1, h2, h3⟩
        | some e =>
          by_cases hj : row.id = j
          · have hc2 : cache_get (c ++ [(row.id, e)]) j = some e := by
              rw [cache_get_append_single, h, if_pos hj]
            have hkeep := ensure_preserves embed rest (c ++ [(row.id, e)]) j e hc2
            rw [hkeep]
            simp only [Option.isSome_some, true_iff]
            exact ⟨row, List.mem_cons_self .., hj, fun hjj => hid (hj.trans hjj),
              by rw [he]; rfl⟩
          · have hc2 : cache_get (c ++ [(row.id, e)]) j = none := by
              rw [cache_get_append_single, h, if_neg hj]
            rw [ih (c ++ [(row.id, e)]) j hc2]
            constructor
            · rintro ⟨r, hr, h1, h2, h3⟩
              exact ⟨r, List.mem_cons_of_mem _ hr, h1, h2, h3⟩
            · rintro ⟨r, hr, h1, h2, h3⟩
              rcases List.mem_cons.mp hr with rfl | hr2
              · exact absurd h1 hj
              · exact ⟨r, hr2, h1, h2, h3⟩

/-- C9: ensure_job_embeddings keeps every previously cached entry
unchanged (already cached ids are skipped), and a failure on one posting
does not abort the pass: for an id not in the loaded cache, the returned
cache has an entry exactly when some catalog row with that (nonempty) id
embeds successfully — failed ids are simply absent. -/
theorem ensure_job_embeddings_spec (embed : String → Option (List ℚ))
    (jobs : List JobPosting) (c0 : EmbCache) :
    (∀ j v, cache_get c0 j = some v →
      cache_get (ensure_job_embeddings embed jobs c0) j = some v)
    ∧ (∀ j, cache_get c0 j = none →
        ((cache_get (ensure_job_embeddings embed jobs c0) j).isSome = true
          ↔ ∃ row ∈ jobs, row.id = j ∧ j ≠ "" ∧ (embed (emb_text row)).isSome = true)) :=
  ⟨fun j v h => ensure_preserves embed jobs c0 j v h,
   fun j h => ensure_new_iff embed jobs c0 j h⟩

/-- Witness for C9: on the sample catalog with one embeddable posting,
the loaded entry survives and the embeddable missing id gets an entry. -/
theorem ensure_job_embeddings_spec_witness :
    cache_get (ensure_job_embeddings embedEx jobsEx cacheEx) "0" = some [2]
    ∧ (cache_get (ensure_job_embeddings embedEx jobsEx cacheEx) "1").isSome = true := by
  refine ⟨(ensure_job_embeddings_spec embedEx jobsEx cacheEx).1 "0" [2] rfl, ?_⟩
  exact ((ensure_job_embeddings_spec embedEx jobsEx cacheEx).2 "1" rfl).mpr
    ⟨⟨"1", "Data Engineer", "Build pipelines with Python and SQL", "Remote"⟩,
      by simp [jobsEx], rfl, by decide, by rfl⟩

theorem blend_map_ids (tw dw : ℚ) (text : String) (jobs : List JobPosting) :
    (jobs.map (lexical_blend tw dw text)).map RankedResult.id = jobs.map JobPosting.id := by
  rw [List.map_map]
  rfl

theorem dict_get_keyword_all (tw dw : ℚ) (jobs : List JobPosting) (text : String)
    (hnd : (jobs.map JobPosting.id).Nodup) (row : JobPosting) (hrow : row ∈ jobs) :
    dict_get (keyword_scores tw dw jobs text (jobs.length : ℤ)) row.id
      = some (lexical_blend tw dw text row).score := by
  have hfull : keyword_scores tw dw jobs text (jobs.length : ℤ)
      = sortByScoreDesc (jobs.map (lexical_blend tw dw text)) := by
    rw [keyword_scores]
    refine pyTake_of_length_le _ _ ?_
    rw [length_sortByScoreDesc, List.length_map]
  rw [hfull]
  have hperm := sortByScoreDesc_perm (jobs.map (lexical_blend tw dw text))
  have hnd2 : ((sortByScoreDesc (jobs.map (lexical_blend tw dw text))).map
      RankedResult.id).Nodup := by
    refine (List.Perm.nodup_iff (hperm.map RankedResult.id)).mpr ?_
    rw [blend_map_ids]
    exact hnd
  exact dict_get_of_mem _ (lexical_blend tw dw text row) hnd2
    (hperm.mem_iff.mpr (List.mem_map_of_mem _ hrow))

theorem emb_score_row_id (sim : List ℚ → List ℚ → ℚ) (e : List ℚ) (cache : EmbCache)
    (row : JobPosting) (r : RankedResult) (h : emb_score_row sim e cache row = some r) :
    r.id = row.id := by
  rw [emb_score_row] at h
  split at h
  · cases h
  · split at h
    · cases h
    · injection h with h2
      rw [← h2]

theorem emb_scored_ids_sublist (sim : List ℚ → List ℚ → ℚ) (e : List ℚ) (cache : EmbCache)
    (jobs : List JobPosting) :
    ((jobs.filterMap (emb_score_row sim e cache)).map RankedResult.id).Sublist
      (jobs.map JobPosting.id) := by
  induction jobs with
  | nil => simp
  | cons row rest ih =>
    rw [List.filterMap_cons]
    cases h : emb_score_row sim e cache row with
    | none =>
      rw [List.map_cons]
      exact ih.cons _
    | some r =>
      rw [List.map_cons, List.map_cons, emb_score_row_id sim e cache row r h]
      exact ih.cons₂ _

theorem emb_no_entry (sim : List ℚ → List ℚ → ℚ) (e : List ℚ) (cache : EmbCache)
    (jobs : List JobPosting) (hnd : (jobs.map JobPosting.id).Nodup)
    (row : JobPosting) (hrow : row ∈ jobs)
    (hskip : emb_score_row sim e cache row = none) :
    ∀ r ∈ jobs.filterMap (emb_score_row sim e cache), r.id ≠ row.id := by
  intro r hr heq
  rcases List.mem_filterMap.mp hr with ⟨row2, hrow2, hsome⟩
  have hid2 : r.id = row2.id := emb_score_row_id sim e cache row2 r hsome
  have heq2 : row2 = row :=
    List.inj_on_of_nodup_map hnd hrow2 hrow (hid2.symm.trans heq)
  rw [heq2, hskip] at hsome
  cases hsome

theorem dict_get_emb_all (sim : List ℚ → List ℚ → ℚ) (e : List ℚ) (jobs : List JobPosting)
    (cache : EmbCache) (hnd : (jobs.map JobPosting.id).Nodup)
    (row : JobPosting) (hrow : row ∈ jobs) :
    (dict_get (pyTake (jobs.length : ℤ) (sortByScoreDesc
        (jobs.filterMap (emb_score_row sim e cache)))) row.id).getD 0
      = match cache_get cache row.id with
        | some v => if v = [] then 0 else sim e v
        | none => 0 := by
  have hfull : pyTake (jobs.length : ℤ)
        (sortByScoreDesc (jobs.filterMap (emb_score_row sim e cache)))
      = sortByScoreDesc (jobs.filterMap (emb_score_row sim e cache)) := by
    refine pyTake_of_length_le _ _ ?_
    rw [length_sortByScoreDesc]
    exact_mod_cast List.length_filterMap_le _ _
  rw [hfull]
  have hperm := sortByScoreDesc_perm (jobs.filterMap (emb_score_row sim e cache))
  have hnd2 : ((sortByScoreDesc (jobs.filterMap (emb_score_row sim e cache))).map
      RankedResult.id).Nodup :=
    (List.Perm.nodup_iff (hperm.map RankedResult.id)).mpr
      ((emb_scored_ids_sublist sim e cache jobs).nodup hnd)
  cases hc : cache_get cache row.id with
  | none =>
    have hskip : emb_score_row sim e cache row = none := by
      rw [emb_score_row, hc]
    rw [dict_get_eq_none _ _ (fun r hr =>
      emb_no_entry sim e cache jobs hnd row hrow hskip r (hperm.subset hr))]
    rfl
  | some v =>
    by_cases hv : v = []
    · subst hv
      have hskip : emb_score_row sim e cache row = none := by
        rw [emb_score_row, hc]
        rfl
      rw [dict_get_eq_none _ _ (fun r hr =>
        emb_no_entry sim e cache jobs hnd row hrow hskip r (hperm.subset hr))]
      rfl
    · have hsome : emb_score_row sim e cache row =
          some ⟨row.id, row.title, row.location, sim e v⟩ := by
        rw [emb_score_row, hc]
        show (if v = [] then none
          else some (⟨row.id, row.title, row.location, sim e v⟩ : RankedResult)) = _
        rw [if_neg hv]
      have hmem : (⟨row.id, row.title, row.location, sim e v⟩ : RankedResult)
          ∈ jobs.filterMap (emb_score_row sim e cache) :=
        List.mem_filterMap.mpr ⟨row, hrow, hsome⟩
      have h2 : dict_get (sortByScoreDesc (jobs.filterMap (emb_score_row sim e cache)))
          row.id = some (sim e v) :=
        dict_get_of_mem _ _ hnd2 (hperm.mem_iff.mpr hmem)
      rw [h2]
      show (some (sim e v)).getD 0 = if v = [] then 0 else sim e v
      rw [if_neg hv]
      rfl

/-- C2: hybrid ranking at alpha = 0 equals the keyword (lexical) branch
response, for every query, catalog (with its unique-id data-model
invariant), cache, weights and embedding outcome; and at alpha = 1, when
the embeddings module is available and the mandatory query embedding
succeeds, the hybrid response equals the pure vector ranking in which a
posting without a (nonempty) cached vector contributes score 0. -/
theorem hybrid_alpha_endpoints (hf : Bool) (sim : List ℚ → List ℚ → ℚ)
    (queryEmb : Option (List ℚ)) (jobs : List JobPosting) (cache : EmbCache)
    (tw dw : ℚ) (text : String) (top : ℤ) (e : List ℚ)
    (hnd : (jobs.map JobPosting.id).Nodup) :
    upload_hybrid hf sim queryEmb jobs cache tw dw 0 text top
      = upload_keywords tw dw jobs text top
    ∧ (hf = true → queryEmb = some e →
        upload_hybrid hf sim queryEmb jobs cache tw dw 1 text top
          = vector_rank_zero_fill sim e jobs cache top) := by
  constructor
  · have hCK : hybrid_combined hf sim queryEmb jobs cache tw dw 0 text
        = jobs.map (lexical_blend tw dw text) := by
      rw [hybrid_combined]
      refine List.map_congr_left fun row hrow => ?_
      rw [dict_get_keyword_all tw dw jobs text hnd row hrow]
      simp only [lexical_blend, Option.getD_some, RankedResult.mk.injEq, true_and]
      ring
    rw [upload_hybrid, hCK, upload_keywords, keyword_scores]
  · intro hhf hqe
    subst hhf
    subst hqe
    by_cases hcache : cache = []
    · subst hcache
      have hCV : hybrid_combined true sim (some e) jobs [] tw dw 1 text
          = jobs.map (fun row =>
              ⟨row.id, row.title, row.location,
                match cache_get [] row.id with
                | some v => if v = [] then 0 else sim e v
                | none => 0⟩) := by
        rw [hybrid_combined]
        refine List.map_congr_left fun row hrow => ?_
        have hemb : hybrid_emb_list true sim (some e) jobs ([] : EmbCache) = [] := by
          rw [hybrid_emb_list, if_neg (by simp)]
        rw [hemb]
        simp only [RankedResult.mk.injEq, true_and, dict_get, cache_get, Option.getD_none]
        ring
      rw [upload_hybrid, hCV, vector_rank_zero_fill]
    · have hemb : hybrid_emb_list true sim (some e) jobs cache
          = pyTake (jobs.length : ℤ)
              (sortByScoreDesc (jobs.filterMap (emb_score_row sim e cache))) := by
        rw [hybrid_emb_list, if_pos ⟨rfl, hcache⟩]
        rfl
      have hCV : hybrid_combined true sim (some e) jobs cache tw dw 1 text
          = jobs.map (fun row =>
              ⟨row.id, row.title, row.location,
                match cache_get cache row.id with
                | some v => if v = [] then 0 else sim e v
                | none => 0⟩) := by
        rw [hybrid_combined]
        refine List.map_congr_left fun row hrow => ?_
        rw [hemb, dict_get_emb_all sim e jobs cache hnd row hrow]
        simp only [RankedResult.mk.injEq, true_and]
        ring
      rw [upload_hybrid, hCV, vector_rank_zero_fill]

/-- Witness for C2 on the sample catalog with one cached vector. -/
theorem hybrid_alpha_endpoints_witness :
    upload_hybrid true (fun _ v => v.sum) (some [1]) jobsEx [("1", [1])]
        (2/5) (3/5) 0 "python" 5
      = upload_keywords (2/5) (3/5) jobsEx "python" 5
    ∧ upload_hybrid true (fun _ v => v.sum) (some [1]) jobsEx [("1", [1])]
        (2/5) (3/5) 1 "python" 5
      = vector_rank_zero_fill (fun _ v => v.sum) [1] jobsEx [("1", [1])] 5 := by
  have h := hybrid_alpha_endpoints true (fun _ v => v.sum) (some [1]) jobsEx [("1", [1])]
    (2/5) (3/5) "python" 5 [1] (by decide)
  exact ⟨h.1, h.2 rfl rfl⟩

theorem dotList_nil_left (b : List ℝ) : dotList [] b = 0 := by
  simp [dotList]

theorem dotList_nil_right (a : List ℝ) : dotList a [] = 0 := by
  cases a <;> simp [dotList]

theorem dotList_cons (x y : ℝ) (xs ys : List ℝ) :
    dotList (x :: xs) (y :: ys) = x * y + dotList xs ys := by
  simp [dotList]

theorem dotList_comm (a b : List ℝ) : dotList a b = dotList b a := by
  induction a generalizing b with
  | nil => rw [dotList_nil_left, dotList_nil_right]
  | cons x xs ih =>
    cases b with
    | nil => rw [dotList_nil_left, dotList_nil_right]
    | cons y ys => rw [dotList_cons, dotList_cons, ih, mul_comm]

theorem sumSq_nonneg (a : List ℝ) : 0 ≤ sumSq a := by
  rw [sumSq]
  refine List.sum_nonneg ?_
  intro x hx
  rcases List.mem_map.mp hx with ⟨y, _, rfl⟩
  exact mul_self_nonneg y

theorem sumSq_pos (a : List ℝ) (h : ∃ x ∈ a, x ≠ 0) : 0 < sumSq a := by
  induction a with
  | nil =>
    rcases h with ⟨x, hx, _⟩
    cases hx
  | cons y ys ih =>
    rw [sumSq, List.map_cons, List.sum_cons]
    rcases h with ⟨x, hx, hx0⟩
    rcases List.mem_cons.mp hx with rfl | hx2
    · have h1 : 0 < x * x := mul_self_pos.mpr hx0
      have h2 := sumSq_nonneg ys
      rw [sumSq] at h2
      linarith
    · have h1 := ih ⟨x, hx2, hx0⟩
      rw [sumSq] at h1
      have h2 := mul_self_nonneg y
      linarith

theorem dotList_self (a : List ℝ) : dotList a a = sumSq a := by
  induction a with
  | nil => simp [dotList, sumSq]
  | cons x xs ih =>
    rw [dotList_cons, ih]
    simp [sumSq]

/-- C8: cosine_similarity is symmetric; it returns 0 whenever either
vector is empty, the lengths differ, or either norm is zero (and never
raises: the function is total); and on any vector with a nonzero entry,
the similarity with itself is exactly 1. -/
theorem cosine_similarity_spec (a b : List ℝ) :
    cosine_similarity a b = cosine_similarity b a
    ∧ ((a = [] ∨ b = [] ∨ a.length ≠ b.length
        ∨ Real.sqrt (sumSq a) = 0 ∨ Real.sqrt (sumSq b) = 0) → cosine_similarity a b = 0)
    ∧ ((∃ x ∈ a, x ≠ 0) → cosine_similarity a a = 1) := by
  refine ⟨?_, ?_, ?_⟩
  · unfold cosine_similarity
    split_ifs <;> first
      | rfl
      | tauto
      | (rw [dotList_comm a b, mul_comm (Real.sqrt (sumSq a)) (Real.sqrt (sumSq b))])
  · intro h
    unfold cosine_similarity
    split_ifs <;> first | rfl | tauto
  · intro h
    have hpos : 0 < sumSq a := sumSq_pos a h
    have hne : a ≠ [] := by
      rcases h with ⟨x, hx, _⟩
      intro hnil
      rw [hnil] at hx
      cases hx
    have hsqrt : Real.sqrt (sumSq a) ≠ 0 := ne_of_gt (Real.sqrt_pos.mpr hpos)
    unfold cosine_similarity
    rw [if_neg (by simp [hne]), if_neg (by simp), if_neg (by simp [hsqrt])]
    rw [dotList_self, Real.mul_self_sqrt (sumSq_nonneg a)]
    exact div_self (ne_of_gt hpos)

/-- Witness for C8: self-similarity 1 on a concrete nonzero vector, and
0 on an empty first argument. -/
theorem cosine_similarity_spec_witness :
    cosine_similarity [1] [1] = 1 ∧ cosine_similarity [] [1] = 0 :=
  ⟨(cosine_similarity_spec [1] [1]).2.2 ⟨1, List.mem_singleton.mpr rfl, one_ne_zero⟩,
   (cosine_similarity_spec [] [1]).2.1 (Or.inl rfl)⟩

/-- C5 (amended): in the upload branches (keywords, hybrid, and the
embeddings branch on success) scores are rounded only at the output
boundary, after sorting and truncating the full-precision scores, while
the embeddings-failure fallback returns unrounded keyword scores; the
match endpoint instead rounds every score before sorting and truncating
(see the counterexample), so its ordering is computed from rounded
scores. -/
theorem rounding_boundary_spec (tw dw : ℚ) (jobs : List JobPosting) (text : String)
    (top : ℤ) (hf : Bool) (sim : List ℚ → List ℚ → ℚ) (queryEmb : Option (List ℚ))
    (cache : EmbCache) (alpha : ℚ) (e : List ℚ) :
    upload_keywords tw dw jobs text top = boundary_rounded_keyword_ranking tw dw jobs text top
    ∧ upload_hybrid hf sim queryEmb jobs cache tw dw alpha text top
        = (pyTake top (sortByScoreDesc
            (hybrid_combined hf sim queryEmb jobs cache tw dw alpha text))).map
          (fun r => ⟨r.id, r.title, r.location, pyRound4 r.score⟩)
    ∧ (hf = true → cache ≠ [] → queryEmb = some e →
        upload_embeddings hf sim queryEmb jobs cache tw dw text top
          = (pyTake top (sortByScoreDesc (jobs.filterMap (emb_score_row sim e cache)))).map
            (fun r => ⟨r.id, r.title, r.location, pyRound4 r.score⟩))
    ∧ (hf = true → cache ≠ [] → queryEmb = none →
        upload_embeddings hf sim queryEmb jobs cache tw dw text top
          = keyword_scores tw dw jobs text top) := by
  refine ⟨rfl, rfl, ?_, ?_⟩
  · intro h1 h2 h3
    subst h1
    subst h3
    rw [upload_embeddings, if_pos ⟨rfl, h2⟩]
    rfl
  · intro h1 h2 h3
    subst h1
    subst h3
    rw [upload_embeddings, if_pos ⟨rfl, h2⟩]
    rfl

/-- Witness for C5 at concrete requests: the embeddings branch with a
failing query embedding returns the unrounded keyword scores. -/
theorem rounding_boundary_spec_witness :
    upload_embeddings true (fun _ _ => 0) none jobsEx [("1", [1])] (2/5) (3/5) "python" 5
      = keyword_scores (2/5) (3/5) jobsEx "python" 5 :=
  (rounding_boundary_spec (2/5) (3/5) jobsEx "python" 5 true (fun _ _ => 0) none
    [("1", [1])] (1/2) [1]).2.2.2 rfl (by simp) rfl

theorem pyRound4_one : pyRound4 1 = 1 := by
  simp only [pyRound4]
  rw [show ⌊(1 : ℚ) * 10000⌋ = 10000 from by rw [Int.floor_eq_iff]; norm_num]
  norm_num

theorem pyRound4_near_one : pyRound4 (100000/100001) = 1 := by
  simp only [pyRound4]
  rw [show ⌊(100000/100001 : ℚ) * 10000⌋ = 9999 from by rw [Int.floor_eq_iff]; norm_num]
  norm_num

/-- C5 counterexample: the match endpoint rounds scores BEFORE sorting.
With weights (0.00001, 1) and query python, the two full-precision
scores differ (posting 2 strictly higher), so the full-precision ranked
list rounded at the boundary puts posting 2 first; but both scores round
to 1.0, and match_jobs — which rounds first and then stable-sorts —
returns posting 1 first. -/
theorem match_rounding_order_counterexample :
    match_jobs jobsRound "python" 5 (some (1/100000)) (some 1)
      = Except.ok [⟨"1", "x", "L1", 1⟩, ⟨"2", "python", "L2", 1⟩]
    ∧ boundary_rounded_keyword_ranking
        (sanitize_and_normalize_weights (some (1/100000)) (some 1)).1
        (sanitize_and_normalize_weights (some (1/100000)) (some 1)).2
        jobsRound "python" 5
      = [⟨"2", "python", "L2", 1⟩, ⟨"1", "x", "L1", 1⟩] := by
  have hw : sanitize_and_normalize_weights (some (1/100000)) (some 1)
      = (1/100001, 100000/100001) := by
    rw [sanitize_and_normalize_weights, if_neg (by simp)]
    norm_num [min_def, max_def, Prod.ext_iff]
  have hs1 : simple_match_score "x" "python" = 0 := by
    rw [simple_match_score, if_neg (by decide),
      show token_set "x" ∩ token_set "python" = ∅ from by decide]
    norm_num
  have hs2 : simple_match_score "python" "python" = 1 := by
    rw [simple_match_score, if_neg (by decide),
      show token_set "python" ∩ token_set "python" = token_set "python" from by decide,
      show (token_set "python").card = 1 from by decide]
    norm_num
  constructor
  · have hstrip : pyStrip "python" = "python" := by decide
    simp only [match_jobs, hstrip, hw]
    rw [if_neg (by decide : ¬("python" = ""))]
    simp only [jobsRound, List.map_cons, List.map_nil, hs1, hs2]
    norm_num
    rw [pyRound4_near_one, pyRound4_one]
    norm_num [sortByScoreDesc, insertDesc, pyTake]
  · simp only [hw, boundary_rounded_keyword_ranking, jobsRound, List.map_cons,
      List.map_nil, lexical_blend, hs1, hs2]
    norm_num
    rw [show sortByScoreDesc
        [⟨"1", "x", "L1", 100000/100001⟩, ⟨"2", "python", "L2", 1⟩]
        = [⟨"2", "python", "L2", 1⟩, ⟨"1", "x", "L1", (100000/100001 : ℚ)⟩] from by
      norm_num [sortByScoreDesc, insertDesc]]
    norm_num [pyTake, pyRound4_near_one, pyRound4_one]
